import Mathlib

/-!
Shallow embedding of the py-spy web viewer core (`src/web_viewer/mod.rs`):
the flame-aggregation algorithm (`FrameNode::insert`, `aggregate_traces`),
the aggregator worker (`update_data`), and the query layer's range
resolution (`http_handler`, routes `/aggregates/{t}/{t}` and `/trace/{id}`).

Machine integers (`u64`, `usize`) are modelled as `Nat`; none of the
quantities involved (counts, lengths, millisecond timestamps) can overflow
in any behaviour the claims quantify over, and the Rust code performs no
wrapping arithmetic on them.  The `f32` statistics entries are modelled as
exact rationals (`Rat`): each stored entry is a quotient of two small
counters, and the claims about them are order/interval facts preserved by
rounding.  `HashMap` is modelled as an association list in insertion
order; the claims never depend on iteration order.
-/

set_option autoImplicit false

namespace WebViewer

/-- One call-stack level, per the `Frame` struct of the `stack_trace`
module (spec section 3): function name, filename, optional shortened
filename, optional module name, line number (0 if unknown). -/
structure Frame where
  name : String
  filename : String
  short_filename : Option String
  module : Option String
  line : Nat
deriving Repr, DecidableEq

/-- One sampled snapshot of one thread, per the `StackTrace` struct used
by the web viewer: thread id, frames innermost-first, an active flag and
a GIL-ownership flag. -/
structure StackTrace where
  thread_id : Nat
  frames : List Frame
  active : Bool
  owns_gil : Bool
deriving Repr, DecidableEq

/-- The display label computed inside `FrameNode::insert` (mod.rs lines
81-87): short filename when present else filename; with line number when
`line_numbers` is set and `line > 0`. -/
def displayName (line_numbers : Bool) (f : Frame) : String :=
  let filename := match f.short_filename with
    | some s => s
    | none => f.filename
  if line_numbers && f.line > 0 then
    f.name ++ " (" ++ filename ++ ":" ++ toString f.line ++ ")"
  else
    f.name ++ " (" ++ filename ++ ")"

/-- A node of the aggregation call tree (`FrameNode` struct): a visit
count, a representative frame, children keyed by display label (a
`HashMap` in Rust, an insertion-ordered association list here), and the
`line_numbers` flag. -/
inductive FrameNode where
  | mk (count : Nat) (frame : Frame) (children : List (String × FrameNode))
       (line_numbers : Bool)

def FrameNode.count : FrameNode → Nat
  | .mk c _ _ _ => c

def FrameNode.frame : FrameNode → Frame
  | .mk _ f _ _ => f

def FrameNode.children : FrameNode → List (String × FrameNode)
  | .mk _ _ cs _ => cs

def FrameNode.line_numbers : FrameNode → Bool
  | .mk _ _ _ l => l

/-- `FrameNode::new`: count 0, no children. -/
def FrameNode.new (frame : Frame) (line_numbers : Bool) : FrameNode :=
  .mk 0 frame [] line_numbers

/-- First value bound to a key in an association list
(`HashMap::entry` lookup part). -/
def lookupChild : List (String × FrameNode) → String → Option FrameNode
  | [], _ => none
  | (k, v) :: rest, key => if k = key then some v else lookupChild rest key

/-- Replace a key's value in an association list, appending when absent
(`HashMap::entry(..).or_insert_with(..)` write-back). -/
def setChild : List (String × FrameNode) → String → FrameNode → List (String × FrameNode)
  | [], key, v => [(key, v)]
  | (k, w) :: rest, key, v =>
    if k = key then (k, v) :: rest else (k, w) :: setChild rest key v

/-- `FrameNode::insert` (mod.rs lines 78-94).  The Rust code consumes an
iterator over frames; here the frame list is passed in traversal order
(the caller reverses, as `trace.frames.iter().rev()` does).  If a frame
remains: find or create the child under its display label and recurse
with the rest; in every case increment this node's count. -/
def FrameNode.insert : FrameNode → List Frame → FrameNode
  | .mk c fr cs l, [] => .mk (c + 1) fr cs l
  | .mk c fr cs l, f :: rest =>
    let name := displayName l f
    let child := match lookupChild cs name with
      | some ch => ch
      | none => FrameNode.new f l
    .mk (c + 1) fr (setChild cs name (child.insert rest)) l

/-- The filter applied per trace in `aggregate_traces` (mod.rs lines
133-140): a trace is kept unless (`!include_idle && !active`) or
(`only_gil && !owns_gil`). -/
def passesFilter (include_idle only_gil : Bool) (t : StackTrace) : Bool :=
  (include_idle || t.active) && (!only_gil || t.owns_gil)

/-- The synthetic root frame labeled "all" (mod.rs line 131). -/
def allFrame : Frame :=
  { name := "all", filename := "", short_filename := none, module := none, line := 0 }

/-- The synthetic per-thread frame and child label
`format!("thread 0x{:x}", thread_id)` (mod.rs lines 144-148). -/
def threadLabel (thread_id : Nat) : String :=
  "thread 0x" ++ String.mk (Nat.toDigits 16 thread_id)

def threadFrame (thread_id : Nat) : Frame :=
  { name := threadLabel thread_id, filename := "", short_filename := none,
    module := none, line := 0 }

/-- One surviving trace's effect on the tree (`aggregate_traces` loop
body, lines 142-152): with `include_threads` the frames go under a
per-thread child of the root and the root itself is untouched; without
it they are inserted at the root. -/
def insertTrace (include_lines include_threads : Bool) (root : FrameNode)
    (t : StackTrace) : FrameNode :=
  if include_threads then
    let name := threadLabel t.thread_id
    let child := match lookupChild root.children name with
      | some ch => ch
      | none => FrameNode.new (threadFrame t.thread_id) include_lines
    .mk root.count root.frame
      (setChild root.children name (child.insert t.frames.reverse))
      root.line_numbers
  else
    root.insert t.frames.reverse

/-- `aggregate_traces` (mod.rs lines 125-158): fold the surviving traces
into a tree rooted at the synthetic "all" node. -/
def aggregate_traces (traces : List StackTrace)
    (include_lines include_threads include_idle only_gil : Bool) : FrameNode :=
  traces.foldl
    (fun root t =>
      if passesFilter include_idle only_gil t then
        insertTrace include_lines include_threads root t
      else root)
    (FrameNode.new allFrame include_lines)

/-- The counts observed along a trace's insertion path: this node's
count, then — as long as a child exists under the next frame's display
label — the counts down that chain.  Used to state that one insertion
increments every node it touches exactly once. -/
def countsAlong : FrameNode → List Frame → List Nat
  | n, [] => [n.count]
  | n, f :: rest =>
    n.count :: (match lookupChild n.children (displayName n.line_numbers f) with
      | some c => countsAlong c rest
      | none => [])

/-- A single-path tree: every node carries the same count `c`, and each
node has exactly one child, labelled and representing the next frame. -/
def chainTree (l : Bool) (c : Nat) : Frame → List Frame → FrameNode
  | fr, [] => .mk c fr [] l
  | fr, f :: rest => .mk c fr [(displayName l f, chainTree l c f rest)] l

/-! ## Store and aggregator worker (`update_data`, mod.rs lines 251-301) -/

/-- The `ProgramStats` struct (mod.rs lines 161-173).  The `f32` time
series are modelled as exact rationals. -/
structure ProgramStats where
  gil : List Rat
  threads : List (Nat × List Rat)
  python_command : String
  version : String
  running : Bool
  sampling_rate : Nat
deriving Repr, DecidableEq

/-- The mutex-guarded `Data` struct (mod.rs lines 175-179). -/
structure Data where
  traces : List StackTrace
  stats : ProgramStats
  trace_ms : List Nat
deriving Repr, DecidableEq

/-- The worker's local state in `update_data`: the GIL-hold counter, the
batches-since-flush counter `current`, the flush threshold `total`, the
per-thread active-count map `threads`, the thread-to-series-index map
`thread_ids`, and the shared `Data`.  Both `HashMap`s are association
lists in insertion order. -/
structure WorkerState where
  current_gil : Nat
  current : Nat
  total : Nat
  threads : List (Nat × Nat)
  thread_ids : List (Nat × Nat)
  data : Data
deriving Repr, DecidableEq

/-- Association-list lookup for the worker's `HashMap<u64, _>` maps. -/
def alistFind : List (Nat × Nat) → Nat → Option Nat
  | [], _ => none
  | (k, v) :: rest, key => if k = key then some v else alistFind rest key

/-- `threads.entry(tid).or_insert(0) += 1`: bump a key's counter,
inserting it at 0 first when absent. -/
def bumpEntry : List (Nat × Nat) → Nat → List (Nat × Nat)
  | [], key => [(key, 1)]
  | (k, v) :: rest, key =>
    if k = key then (k, v + 1) :: rest else (k, v) :: bumpEntry rest key

/-- Append one value to the series stored at a given index of
`stats.threads` (the write `data.stats.threads[thread_index].1.push(..)`). -/
def pushAt (series : List (Nat × List Rat)) (idx : Nat) (v : Rat) :
    List (Nat × List Rat) :=
  series.mapIdx (fun i p => if i = idx then (p.1, p.2 ++ [v]) else p)

/-- The per-trace part of the batch loop (mod.rs lines 262-282): count
GIL holds and per-thread activity, lazily register unseen threads with a
zero back-filled series of the current GIL-series length, and append the
trace and its batch timestamp to the store. -/
def processTrace (timestamp_ms : Nat) (st : WorkerState) (t : StackTrace) :
    WorkerState :=
  let st := if t.owns_gil then { st with current_gil := st.current_gil + 1 } else st
  let st := if t.active then { st with threads := bumpEntry st.threads t.thread_id } else st
  let st := match alistFind st.thread_ids t.thread_id with
    | some _ => st
    | none =>
      let items := st.data.stats.gil.length
      { st with
        thread_ids := st.thread_ids ++ [(t.thread_id, st.data.stats.threads.length)],
        data := { st.data with stats := { st.data.stats with
          threads := st.data.stats.threads ++ [(t.thread_id, List.replicate items 0)] } } }
  { st with data := { st.data with
      traces := st.data.traces ++ [t],
      trace_ms := st.data.trace_ms ++ [timestamp_ms] } }

/-- The 100ms flush (mod.rs lines 286-297): advance the threshold by
100; for each thread of the activity map (in map order) append
`active / current` to its series and reset its counter; append
`current_gil / current` to the GIL series; reset both counters.
`thread_ids[thread]` indexing is total here via a default of 0; it is
only reached for keys the worker has registered. -/
def flush (st : WorkerState) : WorkerState :=
  let stepped := st.threads.foldl
    (fun (acc : List (Nat × Nat) × List (Nat × List Rat)) p =>
      let idx := (alistFind st.thread_ids p.1).getD 0
      (acc.1 ++ [(p.1, 0)], pushAt acc.2 idx ((p.2 : Rat) / (st.current : Rat))))
    ([], st.data.stats.threads)
  { st with
    total := st.total + 100,
    threads := stepped.1,
    current_gil := 0,
    current := 0,
    data := { st.data with stats := { st.data.stats with
      threads := stepped.2,
      gil := st.data.stats.gil ++ [(st.current_gil : Rat) / (st.current : Rat)] } } }

/-- Processing one `Message::Traces(traces, timestamp_ms)` (mod.rs lines
261-298): fold the traces, bump the batch counter, and flush when the
threshold has been reached. -/
def processBatch (st : WorkerState) (msg : List StackTrace × Nat) : WorkerState :=
  let st := msg.1.foldl (processTrace msg.2) st
  let st := { st with current := st.current + 1 }
  if st.total ≤ msg.2 then flush st else st

/-- The worker's initial state: counters at zero, empty maps, and the
`Data` built in `WebViewer::new` (mod.rs lines 22-28). -/
def initState (python_command version : String) (sampling_rate : Nat) : WorkerState :=
  { current_gil := 0, current := 0, total := 0, threads := [], thread_ids := [],
    data := { traces := [], trace_ms := [],
              stats := { gil := [], threads := [], python_command, version,
                         running := true, sampling_rate } } }

/-- `update_data` run over a finite message sequence: the batches before
the `Terminate` message, consumed strictly in order. -/
def update_data (msgs : List (List StackTrace × Nat)) : WorkerState :=
  msgs.foldl processBatch (initState "" "" 0)

/-! ## Range resolution and query layer (`http_handler`, mod.rs 187-227) -/

/-- The loop of Rust's `slice::binary_search` on the window
`[base, base + size)`: while more than one element remains, probe
`mid = base + size / 2`, keep `base` when the probe exceeds the target
and move it to `mid` otherwise, shrinking the window to `size - size/2`;
on the final element return `Ok` on equality, else `Err` of the
insertion point. -/
def binarySearchGo (arr : List Nat) (t : Nat) (base size : Nat) : Except Nat Nat :=
  if h : 1 < size then
    let half := size / 2
    let mid := base + half
    if t < arr.getD mid 0 then
      binarySearchGo arr t base (size - half)
    else
      binarySearchGo arr t mid (size - half)
  else
    let v := arr.getD base 0
    if v = t then .ok base
    else if v < t then .error (base + 1)
    else .error base
termination_by size
decreasing_by
  all_goals omega

/-- `Vec::binary_search(&x)`: `Ok(i)` at a position holding the value, or
`Err(ip)` at the insertion point. -/
def binary_search (arr : List Nat) (t : Nat) : Except Nat Nat :=
  if arr.length = 0 then .error 0 else binarySearchGo arr t 0 arr.length

/-- Boundary resolution of the `/aggregates/{start_time}/{end_time}`
route (mod.rs lines 193-201): the matched index on `Ok`, else the
insertion point minus one when positive, else the insertion point. -/
def resolveIndex (arr : List Nat) (t : Nat) : Nat :=
  match binary_search arr t with
  | .ok v => v
  | .error v => if v > 0 then v - 1 else v

/-- The `/aggregates/{start_time}/{end_time}` handler (mod.rs lines
192-215): resolve both boundaries, reject (HTTP 400, modelled as `none`)
unless both indices are in bounds and `end > start`, else aggregate the
slice `traces[start..end]`. -/
def aggregates_route (d : Data) (start_time end_time : Nat)
    (include_lines include_threads include_idle gil_only : Bool) : Option FrameNode :=
  let s := resolveIndex d.trace_ms start_time
  let e := resolveIndex d.trace_ms end_time
  if s < d.traces.length ∧ e < d.traces.length then
    if e > s then
      some (aggregate_traces ((d.traces.drop s).take (e - s))
              include_lines include_threads include_idle gil_only)
    else none
  else none

/-- The `/trace/{id}` handler (mod.rs lines 216-219): the stored trace at
the index, or rejection (HTTP 400, modelled as `none`) when out of
bounds. -/
def trace_route (d : Data) (id : Nat) : Option StackTrace :=
  if h : id < d.traces.length then some (d.traces.get ⟨id, h⟩) else none

/-! ## Concrete sample inputs used by witnesses and counterexamples -/

def sampleFrame : Frame :=
  { name := "f", filename := "m.py", short_filename := none, module := none, line := 1 }

def traceIdle : StackTrace :=
  { thread_id := 1, frames := [], active := false, owns_gil := false }

def traceGil : StackTrace :=
  { thread_id := 2, frames := [], active := true, owns_gil := true }

def traceActive : StackTrace :=
  { thread_id := 3, frames := [sampleFrame], active := true, owns_gil := false }

def traceActiveB : StackTrace :=
  { thread_id := 4, frames := [sampleFrame], active := true, owns_gil := true }

def sampleStats : ProgramStats :=
  { gil := [], threads := [], python_command := "", version := "",
    running := true, sampling_rate := 0 }

def sampleData : Data :=
  { traces := [traceActive, traceGil], stats := sampleStats, trace_ms := [0, 100] }

/-! ## Theorems -/

/-- Sortedness transported to default-valued indexing. -/
theorem sorted_getD {arr : List Nat} (hs : List.Pairwise (· ≤ ·) arr) {i j : Nat}
    (hij : i ≤ j) (hj : j < arr.length) : arr.getD i 0 ≤ arr.getD j 0 := by
  rcases Nat.eq_or_lt_of_le hij with rfl | hlt
  · exact le_refl _
  · have hi : i < arr.length := lt_trans hlt hj
    rw [List.getD_eq_getElem arr 0 hi, List.getD_eq_getElem arr 0 hj]
    exact List.pairwise_iff_getElem.mp hs i j hi hj hlt

/-- The conclusion of the binary-search contract: a found index holds the
target, a missed search reports the unique insertion point. -/
def searchSpec (arr : List Nat) (t : Nat) : Except Nat Nat → Prop
  | .ok i => i < arr.length ∧ arr.getD i 0 = t
  | .error v => v ≤ arr.length ∧ (∀ j, j < v → arr.getD j 0 < t) ∧
      (∀ j, v ≤ j → j < arr.length → t < arr.getD j 0)

/-- Loop invariant proof for the `binary_search` window loop. -/
theorem binarySearchGo_spec (arr : List Nat) (t : Nat)
    (hs : List.Pairwise (· ≤ ·) arr) :
    ∀ size base, 1 ≤ size → base + size ≤ arr.length →
    (∀ j, j < base → arr.getD j 0 ≤ t) →
    (∀ j, base + size ≤ j → j < arr.length → t < arr.getD j 0) →
    (base = 0 ∨ arr.getD base 0 ≤ t) →
    searchSpec arr t (binarySearchGo arr t base size) := by
  intro size
  induction size using Nat.strong_induction_on with
  | _ size ih =>
    intro base hsz hbound hleft hright hor
    rw [binarySearchGo]
    by_cases hgt : 1 < size
    · rw [dif_pos hgt]
      have hhalf : 1 ≤ size / 2 := Nat.one_le_div_iff (by omega) |>.mpr (by omega)
      have hhalf2 : size / 2 ≤ size - size / 2 := by omega
      have hmidlt : base + size / 2 < arr.length := by omega
      by_cases hcmp : t < arr.getD (base + size / 2) 0
      · rw [if_pos hcmp]
        refine ih (size - size / 2) (by omega) base (by omega) (by omega) hleft ?_ hor
        intro j hj hjlen
        rcases Nat.lt_or_ge j (base + size) with hj2 | hj2
        · exact lt_of_lt_of_le hcmp (sorted_getD hs (by omega) hjlen)
        · exact hright j hj2 hjlen
      · rw [if_neg hcmp]
        push_neg at hcmp
        refine ih (size - size / 2) (by omega) (base + size / 2) (by omega) (by omega)
          ?_ ?_ (Or.inr hcmp)
        · intro j hj
          exact le_trans (sorted_getD hs (by omega) hmidlt) hcmp
        · intro j hj hjlen
          exact hright j (by omega) hjlen
    · rw [dif_neg hgt]
      have hsz1 : size = 1 := by omega
      have hbase : base < arr.length := by omega
      by_cases heq : arr.getD base 0 = t
      · rw [if_pos heq]
        exact ⟨hbase, heq⟩
      · rw [if_neg heq]
        by_cases hlt : arr.getD base 0 < t
        · rw [if_pos hlt]
          refine ⟨by omega, ?_, ?_⟩
          · intro j hj
            exact lt_of_le_of_lt (sorted_getD hs (by omega) hbase) hlt
          · intro j hj hjlen
            exact hright j (by omega) hjlen
        · rw [if_neg hlt]
          have hgt2 : t < arr.getD base 0 := by omega
          have hbase0 : base = 0 := by
            rcases hor with h0 | hle
            · exact h0
            · omega
          subst hbase0
          refine ⟨by omega, by omega, ?_⟩
          intro j hj hjlen
          exact lt_of_lt_of_le hgt2 (sorted_getD hs (by omega) hjlen)

/-- The binary-search contract on sorted input. -/
theorem binary_search_spec (arr : List Nat) (t : Nat)
    (hs : List.Pairwise (· ≤ ·) arr) :
    searchSpec arr t (binary_search arr t) := by
  unfold binary_search
  by_cases h0 : arr.length = 0
  · rw [if_pos h0]
    exact ⟨by omega, by omega, by omega⟩
  · rw [if_neg h0]
    exact binarySearchGo_spec arr t hs arr.length 0 (by omega) (by omega)
      (by omega) (by omega) (Or.inl rfl)

/-- Without any sortedness assumption, the search result stays within
the window, hence within bounds. -/
theorem binarySearchGo_bound (arr : List Nat) (t : Nat) :
    ∀ size base, 1 ≤ size → base + size ≤ arr.length →
    (match binarySearchGo arr t base size with
     | .ok i => i < arr.length
     | .error v => v ≤ arr.length) := by
  intro size
  induction size using Nat.strong_induction_on with
  | _ size ih =>
    intro base hsz hbound
    rw [binarySearchGo]
    by_cases hgt : 1 < size
    · rw [dif_pos hgt]
      have hhalf : 1 ≤ size / 2 := Nat.one_le_div_iff (by omega) |>.mpr (by omega)
      by_cases hcmp : t < arr.getD (base + size / 2) 0
      · rw [if_pos hcmp]
        exact ih (size - size / 2) (by omega) base (by omega) (by omega)
      · rw [if_neg hcmp]
        exact ih (size - size / 2) (by omega) (base + size / 2) (by omega) (by omega)
    · rw [dif_neg hgt]
      by_cases heq : arr.getD base 0 = t
      · rw [if_pos heq]
        omega
      · rw [if_neg heq]
        by_cases hlt : arr.getD base 0 < t
        · rw [if_pos hlt]
          omega
        · rw [if_neg hlt]
          omega

/-- A resolved boundary index is always strictly below the length of a
non-empty timestamp index, for any query time, sorted or not. -/
theorem resolveIndex_lt (arr : List Nat) (t : Nat) (h : arr.length ≠ 0) :
    resolveIndex arr t < arr.length := by
  have hb := binarySearchGo_bound arr t arr.length 0 (by omega) (by omega)
  unfold resolveIndex binary_search
  rw [if_neg h]
  rcases hres : binarySearchGo arr t 0 arr.length with v | v <;> rw [hres] at hb
  · simp only []
    split <;> omega
  · exact hb

/-- C8: the trace-by-index query returns the stored trace at the index
when it is below the trace count, reports invalid-request (none) when it
is at or above the count, and in particular rejects the index equal to
the count. -/
theorem C8_trace_by_index (d : Data) (id : Nat) :
    (∀ h : id < d.traces.length, trace_route d id = some (d.traces.get ⟨id, h⟩)) ∧
    (d.traces.length ≤ id → trace_route d id = none) ∧
    trace_route d d.traces.length = none := by
  refine ⟨fun h => ?_, fun h => ?_, ?_⟩
  · simp [trace_route, h]
  · simp [trace_route]
    omega
  · simp [trace_route]

/-- Witness for C8 at a concrete store of two traces. -/
theorem C8_trace_by_index_witness :
    trace_route sampleData 0 = some traceActive ∧ trace_route sampleData 2 = none := by
  refine ⟨(C8_trace_by_index sampleData 0).1 (by decide), ?_⟩
  exact (C8_trace_by_index sampleData 2).2.1 (by decide)

/-- C4: a range-aggregate request is rejected (none) exactly when a
resolved boundary index is out of bounds or the resolved end index is at
most the resolved start index; a zero-width range (equal times) is always
rejected; otherwise the half-open slice [start_index, end_index) of the
trace log is aggregated. -/
theorem C4_range_reject (d : Data) (st et : Nat) (il it ii og : Bool) :
    (aggregates_route d st et il it ii og = none ↔
      d.traces.length ≤ resolveIndex d.trace_ms st ∨
      d.traces.length ≤ resolveIndex d.trace_ms et ∨
      resolveIndex d.trace_ms et ≤ resolveIndex d.trace_ms st) ∧
    aggregates_route d st st il it ii og = none ∧
    aggregates_route d st et il it ii og =
      (if d.traces.length ≤ resolveIndex d.trace_ms st ∨
          d.traces.length ≤ resolveIndex d.trace_ms et ∨
          resolveIndex d.trace_ms et ≤ resolveIndex d.trace_ms st then none
       else some (aggregate_traces
          ((d.traces.drop (resolveIndex d.trace_ms st)).take
            (resolveIndex d.trace_ms et - resolveIndex d.trace_ms st)) il it ii og)) := by
  have hmain : aggregates_route d st et il it ii og =
      (if d.traces.length ≤ resolveIndex d.trace_ms st ∨
          d.traces.length ≤ resolveIndex d.trace_ms et ∨
          resolveIndex d.trace_ms et ≤ resolveIndex d.trace_ms st then none
       else some (aggregate_traces
          ((d.traces.drop (resolveIndex d.trace_ms st)).take
            (resolveIndex d.trace_ms et - resolveIndex d.trace_ms st)) il it ii og)) := by
    simp only [aggregates_route]
    split_ifs <;> first | rfl | omega
  refine ⟨?_, ?_, hmain⟩
  · rw [hmain]
    split_ifs with h <;> simp [h]
  · simp only [aggregates_route]
    split_ifs <;> first | rfl | omega

/-- The insertion point of a missed search equals the number of elements
below the target: the split hypotheses pin it down. -/
theorem countP_eq_insertion_point (arr : List Nat) (t v : Nat) (hv : v ≤ arr.length)
    (h1 : ∀ j, j < v → arr.getD j 0 < t)
    (h2 : ∀ j, v ≤ j → j < arr.length → t < arr.getD j 0) :
    arr.countP (fun x => decide (x < t)) = v := by
  have hsplit := List.take_append_drop v arr
  have htk : (arr.take v).countP (fun x => decide (x < t)) = (arr.take v).length := by
    rw [List.countP_eq_length]
    intro a ha
    rcases List.mem_iff_getElem.mp ha with ⟨i, hi, rfl⟩
    have hiv : i < v := by
      have := List.length_take v arr
      omega
    have hilen : i < arr.length := by omega
    rw [List.getElem_take]
    have := h1 i hiv
    rw [List.getD_eq_getElem arr 0 hilen] at this
    simpa using this
  have hdp : (arr.drop v).countP (fun x => decide (x < t)) = 0 := by
    rw [List.countP_eq_zero]
    intro a ha
    rcases List.mem_iff_getElem.mp ha with ⟨i, hi, rfl⟩
    have hlen : (arr.drop v).length = arr.length - v := List.length_drop v arr
    have hvi : v + i < arr.length := by omega
    rw [List.getElem_drop]
    have := h2 (v + i) (by omega) hvi
    rw [List.getD_eq_getElem arr 0 hvi] at this
    simp only [decide_eq_true_eq]
    omega
  calc arr.countP (fun x => decide (x < t))
      = ((arr.take v) ++ (arr.drop v)).countP (fun x => decide (x < t)) := by
        rw [hsplit]
    _ = v := by
        rw [List.countP_append, htk, hdp, List.length_take]
        omega

/-- C3: boundary resolution over a sorted timestamp index returns an
index holding the queried time on an exact match; otherwise the
insertion point minus one when positive, else 0; consequently a time
between two stored timestamps resolves to the earlier one's index, and a
time below the first stored timestamp resolves to index 0. -/
theorem C3_range_resolution (arr : List Nat) (t : Nat)
    (hs : List.Pairwise (· ≤ ·) arr) :
    (t ∈ arr → arr.getD (resolveIndex arr t) 0 = t) ∧
    (t ∉ arr →
      resolveIndex arr t =
        if 0 < arr.countP (fun x => decide (x < t)) then
          arr.countP (fun x => decide (x < t)) - 1
        else 0) ∧
    (∀ i, i + 1 < arr.length → arr.getD i 0 < t → t < arr.getD (i + 1) 0 →
      resolveIndex arr t = i) ∧
    (0 < arr.length → t < arr.getD 0 0 → resolveIndex arr t = 0) := by
  have hspec := binary_search_spec arr t hs
  unfold resolveIndex
  rcases hres : binary_search arr t with v | i <;>
    rw [hres] at hspec <;> simp only [searchSpec] at hspec
  · obtain ⟨hv, hlo, hhi⟩ := hspec
    refine ⟨?_, ?_, ?_, ?_⟩
    · intro hmem
      exfalso
      rcases List.mem_iff_getElem.mp hmem with ⟨j, hj, hval⟩
      rcases Nat.lt_or_ge j v with hjv | hjv
      · have := hlo j hjv
        rw [List.getD_eq_getElem arr 0 hj] at this
        omega
      · have := hhi j hjv hj
        rw [List.getD_eq_getElem arr 0 hj] at this
        omega
    · intro _
      rw [countP_eq_insertion_point arr t v hv hlo hhi]
      simp only []
      split <;> omega
    · intro i hi1 hil hir
      have hvi : i + 1 ≤ v := by
        by_contra hcon
        have := hhi i (by omega) (by omega)
        rw [List.getD_eq_getElem arr 0 (by omega : i < arr.length)] at this
        rw [List.getD_eq_getElem arr 0 (by omega : i < arr.length)] at hil
        omega
      have hvi2 : v ≤ i + 1 := by
        by_contra hcon
        have := hlo (i + 1) (by omega)
        omega
      simp only []
      split <;> omega
    · intro h0 ht0
      simp only []
      by_cases hvp : v > 0
      · exfalso
        have := hlo 0 hvp
        omega
      · rw [if_neg hvp]
        omega
  · simp only []
    refine ⟨fun _ => hspec.2, ?_, ?_, ?_⟩
    · intro hnmem
      exfalso
      apply hnmem
      rw [← hspec.2, List.getD_eq_getElem arr 0 hspec.1]
      exact List.getElem_mem hspec.1
    · intro j hj1 hjl hjr
      exfalso
      have hne := hspec.2
      rcases Nat.lt_or_ge i (j + 1) with hij | hij
      · have hle := sorted_getD hs (show i ≤ j by omega) (show j < arr.length by omega)
        omega
      · have hle := sorted_getD hs (show j + 1 ≤ i by omega) hspec.1
        omega
    · intro h0 ht0
      exfalso
      have hle := sorted_getD hs (Nat.zero_le i) hspec.1
      omega

/-- Witness for C3: a time lying between the two stored timestamps 10
and 20 resolves to index 0. -/
theorem C3_range_resolution_witness : resolveIndex [10, 20] 15 = 0 := by
  have h := C3_range_resolution [10, 20] 15 (by decide)
  exact h.2.2.1 0 (by decide) (by decide) (by decide)

/-- A slice that stays below the last index is unaffected by removing
the last element. -/
theorem take_drop_dropLast {α : Type} (l : List α) (s k : Nat)
    (h : s + k ≤ l.length - 1) :
    (l.drop s).take k = (l.dropLast.drop s).take k := by
  rw [List.dropLast_eq_take, List.drop_take, List.take_take]
  have : min k (l.length - 1 - s) = k := Nat.min_eq_left (by omega)
  rw [this]

/-- C10: with a non-empty trace log, the resolved end index is at most
trace count minus one, and a successful range aggregate covers exactly
the half-open slice below it — the trace at the resolved end index, in
particular the most recently ingested trace, is never aggregated. -/
theorem C10_last_trace_excluded (d : Data) (st et : Nat) (il it ii og : Bool)
    (hlen : d.trace_ms.length = d.traces.length) (hne : 0 < d.traces.length) :
    resolveIndex d.trace_ms et ≤ d.traces.length - 1 ∧
    ∀ r, aggregates_route d st et il it ii og = some r →
      r = aggregate_traces
            ((d.traces.dropLast.drop (resolveIndex d.trace_ms st)).take
              (resolveIndex d.trace_ms et - resolveIndex d.trace_ms st)) il it ii og := by
  have hms : d.trace_ms.length ≠ 0 := by omega
  have hlt := resolveIndex_lt d.trace_ms et hms
  rw [hlen] at hlt
  refine ⟨by omega, ?_⟩
  intro r hr
  simp only [aggregates_route] at hr
  split_ifs at hr with h1 h2
  · injection hr with hr
    rw [← hr]
    rw [take_drop_dropLast d.traces _ _ (by omega)]

/-- Witness for C10 at a concrete store of two traces with timestamps 0
and 100: any end time resolves at most to index 1. -/
theorem C10_last_trace_excluded_witness :
    resolveIndex sampleData.trace_ms 100 ≤ sampleData.traces.length - 1 :=
  (C10_last_trace_excluded sampleData 0 100 false false false false
    (by decide) (by decide)).1

/-- C1: evaluation of the worker at the failing input.  One batch holding
a single idle trace of thread 1 at timestamp 0 triggers a flush: the
global GIL series gains an entry, but thread 1 — registered in
Statistics with a back-filled series — receives none, because the flush
iterates the active-count map and an idle-only thread was never entered
there.  The per-thread series length diverges from the GIL series
length. -/
theorem C1_series_divergence :
    (update_data [([traceIdle], 0)]).data.stats.gil.length = 1 ∧
    (update_data [([traceIdle], 0)]).data.stats.threads = [(1, [])] := by
  constructor <;> rfl

/-- C2 counterexample: with `include_threads = true` a merged trace does
not increment the synthetic root.  One surviving trace is merged (its
thread child exists with count 1), yet the root's count is 0, not 1. -/
theorem C2_counterexample :
    (aggregate_traces [traceGil] false true true false).count = 0 ∧
    (List.filter (passesFilter true false) [traceGil]).length = 1 ∧
    (lookupChild (aggregate_traces [traceGil] false true true false).children
        (threadLabel 2)).map FrameNode.count = some 1 := by
  refine ⟨rfl, rfl, ?_⟩
  rfl

/-- C5 counterexample: a single batch containing two GIL-owning traces
flushes a global series entry of 2/1 = 2, outside [0, 1]. -/
theorem C5_counterexample :
    (update_data [([traceGil, traceGil], 0)]).data.stats.gil =
      [((2 : Nat) : Rat) / ((1 : Nat) : Rat)] ∧
    ¬ (((2 : Nat) : Rat) / ((1 : Nat) : Rat) ≤ 1) := by
  constructor
  · rfl
  · norm_num

/-- Folding with a guarded step is folding the filtered list. -/
theorem foldl_filter_step {α β : Type} (p : α → Bool) (g : β → α → β) :
    ∀ (l : List α) (b : β),
    l.foldl (fun acc t => if p t then g acc t else acc) b = (l.filter p).foldl g b := by
  intro l
  induction l with
  | nil => intro b; rfl
  | cons x xs ih =>
    intro b
    by_cases h : p x <;> simp [List.filter_cons, h, ih]

theorem filter_idem {α : Type} (p : α → Bool) (l : List α) :
    (l.filter p).filter p = l.filter p := by
  induction l with
  | nil => rfl
  | cons x xs ih => by_cases h : p x <;> simp [List.filter_cons, h, ih]

/-- C7: the aggregation filters — a tree built from a trace slice equals
the tree built from the slice restricted to the surviving traces, a
trace with `active = false` never survives when `include_idle = false`,
and a trace with `owns_gil = false` never survives when
`gil_only = true`. -/
theorem C7_filter_semantics (traces : List StackTrace)
    (il it ii og : Bool) :
    aggregate_traces traces il it ii og =
      aggregate_traces (traces.filter (passesFilter ii og)) il it ii og ∧
    (∀ t : StackTrace, t.active = false → passesFilter false og t = false) ∧
    (∀ t : StackTrace, t.owns_gil = false → passesFilter ii true t = false) := by
  refine ⟨?_, ?_, ?_⟩
  · unfold aggregate_traces
    rw [foldl_filter_step, foldl_filter_step, filter_idem]
  · intro t ht
    simp [passesFilter, ht]
  · intro t ht
    simp [passesFilter, ht]

/-- Witness for C7: an idle trace is filtered out even when it owns the
GIL. -/
theorem C7_filter_semantics_witness : passesFilter false false traceIdle = false :=
  (C7_filter_semantics [] false false false false).2.1 traceIdle rfl

/-- Inserting a trace increments the receiving node's count by one. -/
theorem insert_count (n : FrameNode) (fs : List Frame) :
    (n.insert fs).count = n.count + 1 := by
  rcases n with ⟨c, fr, cs, l⟩
  cases fs <;> rfl

theorem lookupChild_setChild (cs : List (String × FrameNode)) (k : String)
    (v : FrameNode) : lookupChild (setChild cs k v) k = some v := by
  induction cs with
  | nil => simp [setChild, lookupChild]
  | cons p rest ih =>
    obtain ⟨k1, w⟩ := p
    by_cases h : k1 = k
    · simp [setChild, lookupChild, h]
    · simp [setChild, lookupChild, h, ih]

theorem countsAlong_nilChildren (c : Nat) (fr : Frame) (l : Bool)
    (fs : List Frame) : countsAlong (.mk c fr [] l) fs = [c] := by
  cases fs <;>
    simp [countsAlong, lookupChild, FrameNode.count, FrameNode.children,
      FrameNode.line_numbers]

/-- One insertion increments every count along the trace's path exactly
once: nodes already present contribute their previous counts, missing
nodes enter at zero, and all of them — root included — gain one. -/
theorem countsAlong_insert (fs : List Frame) :
    ∀ n : FrameNode,
    countsAlong (n.insert fs) fs =
      (countsAlong n fs ++
        List.replicate (fs.length + 1 - (countsAlong n fs).length) 0).map (· + 1) := by
  induction fs with
  | nil =>
    intro n
    rcases n with ⟨c, fr, cs, l⟩
    simp [FrameNode.insert, countsAlong, FrameNode.count]
  | cons f rest ih =>
    intro n
    rcases n with ⟨c, fr, cs, l⟩
    simp only [FrameNode.insert, countsAlong, FrameNode.count, FrameNode.children,
      FrameNode.line_numbers]
    rw [lookupChild_setChild]
    cases hlk : lookupChild cs (displayName l f) with
    | some ch =>
      simp only [List.cons_append, List.map_cons, List.length_cons, List.length_append]
      rw [ih ch]
      have harith : rest.length + 1 + 1 - ((countsAlong ch rest).length + 1) =
          rest.length + 1 - (countsAlong ch rest).length := by omega
      rw [harith]
    | none =>
      simp only [List.cons_append, List.map_cons, List.length_cons, List.length_append]
      rw [ih (FrameNode.new f l)]
      simp only [FrameNode.new, countsAlong_nilChildren]
      have h1 : rest.length + 1 - (List.length [0]) = rest.length := by simp
      have h2 : rest.length + 1 + 1 - (List.length ([] : List Nat) + 1) =
          rest.length + 1 := by simp
      rw [h1, h2]
      rw [List.replicate_succ]
      simp

/-- Root count accumulates one per surviving trace when traces are
inserted at the root (no thread grouping). -/
theorem aggregate_count_fold (il ii og : Bool) (traces : List StackTrace) :
    ∀ r : FrameNode,
    (traces.foldl
      (fun root t => if passesFilter ii og t then insertTrace il false root t
                     else root) r).count =
      r.count + (traces.filter (passesFilter ii og)).length := by
  induction traces with
  | nil => intro r; simp
  | cons t ts ih =>
    intro r
    by_cases h : passesFilter ii og t
    · simp only [List.foldl_cons, if_pos h, List.filter_cons, h, if_true,
        List.length_cons]
      rw [ih]
      have hc : (insertTrace il false r t).count = r.count + 1 := by
        simp [insertTrace, insert_count]
      omega
    · simp only [List.foldl_cons, if_neg h, List.filter_cons, h]
      rw [ih]
      simp

/-- C2 (amended to ungrouped aggregation): without thread grouping the
root's count equals the number of traces that survive the filters, and a
single insertion increments the count of every node along its path —
the root included — exactly once (missing nodes are created at zero
first). -/
theorem C2_path_counts (traces : List StackTrace) (il ii og : Bool) :
    (aggregate_traces traces il false ii og).count =
      (traces.filter (passesFilter ii og)).length ∧
    ∀ (n : FrameNode) (fs : List Frame),
      countsAlong (n.insert fs) fs =
        (countsAlong n fs ++
          List.replicate (fs.length + 1 - (countsAlong n fs).length) 0).map (· + 1) := by
  constructor
  · unfold aggregate_traces
    rw [aggregate_count_fold]
    simp [FrameNode.new, FrameNode.count]
  · intro n fs
    exact countsAlong_insert fs n

/-- A first insertion into a childless node lays down a fresh chain:
the node's count goes up by one and every new node below carries
count 1. -/
theorem insert_into_new (l : Bool) (fs : List Frame) :
    ∀ fr : Frame, (FrameNode.mk 0 fr [] l).insert fs = chainTree l 1 fr fs := by
  induction fs with
  | nil => intro fr; rfl
  | cons f rest ih =>
    intro fr
    simp only [FrameNode.insert, chainTree, lookupChild, setChild, FrameNode.new]
    rw [ih f]

/-- Re-inserting the same frame sequence walks the existing chain and
increments every count. -/
theorem insert_into_chain (l : Bool) (c : Nat) (fs : List Frame) :
    ∀ fr : Frame, (chainTree l c fr fs).insert fs = chainTree l (c + 1) fr fs := by
  induction fs with
  | nil => intro fr; rfl
  | cons f rest ih =>
    intro fr
    simp only [FrameNode.insert, chainTree, lookupChild, setChild, if_pos]
    rw [ih f]

/-- C9: merging two surviving traces with identical frame sequences (no
thread grouping) is order-independent and yields the single-path tree in
which every node — the leaf in particular — has count 2. -/
theorem C9_order_independence (t1 t2 : StackTrace) (il ii og : Bool)
    (hf : t1.frames = t2.frames)
    (h1 : passesFilter ii og t1 = true) (h2 : passesFilter ii og t2 = true) :
    aggregate_traces [t1, t2] il false ii og =
      aggregate_traces [t2, t1] il false ii og ∧
    aggregate_traces [t1, t2] il false ii og =
      chainTree il 2 allFrame t1.frames.reverse := by
  have hexp : ∀ a b : StackTrace, passesFilter ii og a = true →
      passesFilter ii og b = true →
      aggregate_traces [a, b] il false ii og =
        ((FrameNode.new allFrame il).insert a.frames.reverse).insert b.frames.reverse := by
    intro a b ha hb
    simp [aggregate_traces, insertTrace, ha, hb]
  have hval : ((FrameNode.new allFrame il).insert t1.frames.reverse).insert
      t1.frames.reverse = chainTree il 2 allFrame t1.frames.reverse := by
    rw [FrameNode.new, insert_into_new, insert_into_chain]
  constructor
  · rw [hexp t1 t2 h1 h2, hexp t2 t1 h2 h1, hf]
  · rw [hexp t1 t2 h1 h2, ← hf, hval]

/-- Witness for C9 at two concrete traces sharing one frame. -/
theorem C9_order_independence_witness :
    aggregate_traces [traceActive, traceActiveB] false false true false =
      aggregate_traces [traceActiveB, traceActive] false false true false :=
  (C9_order_independence traceActive traceActiveB false true false
    rfl rfl rfl).1

/-- Effect of one trace on the worker state: the trace and its timestamp
are appended; the batch counter, flush threshold and GIL series are
untouched; the GIL counter grows by one exactly on a GIL-owning trace. -/
theorem processTrace_data (ts : Nat) (st : WorkerState) (t : StackTrace) :
    (processTrace ts st t).data.traces = st.data.traces ++ [t] ∧
    (processTrace ts st t).data.trace_ms = st.data.trace_ms ++ [ts] ∧
    (processTrace ts st t).current = st.current ∧
    (processTrace ts st t).current_gil =
      st.current_gil + (if t.owns_gil then 1 else 0) ∧
    (processTrace ts st t).data.stats.gil = st.data.stats.gil ∧
    (processTrace ts st t).total = st.total := by
  unfold processTrace
  split_ifs <;> rcases halist : alistFind st.thread_ids t.thread_id with _ | v <;>
    simp_all

/-- The same facts lifted to the whole batch loop. -/
theorem foldl_processTrace_data (ts : Nat) (b : List StackTrace) :
    ∀ st : WorkerState,
    (b.foldl (processTrace ts) st).data.traces = st.data.traces ++ b ∧
    (b.foldl (processTrace ts) st).data.trace_ms =
      st.data.trace_ms ++ List.replicate b.length ts ∧
    (b.foldl (processTrace ts) st).current = st.current ∧
    (b.foldl (processTrace ts) st).current_gil =
      st.current_gil + b.countP (fun t => t.owns_gil) ∧
    (b.foldl (processTrace ts) st).data.stats.gil = st.data.stats.gil := by
  induction b with
  | nil => intro st; simp
  | cons t rest ih =>
    intro st
    obtain ⟨e1, e2, e3, e4, e5⟩ := ih (processTrace ts st t)
    obtain ⟨p1, p2, p3, p4, p5, _⟩ := processTrace_data ts st t
    simp only [List.foldl_cons]
    refine ⟨?_, ?_, ?_, ?_, ?_⟩
    · rw [e1, p1, List.append_assoc]
      rfl
    · rw [e2, p2, List.length_cons, List.replicate_succ, List.append_assoc]
      rfl
    · rw [e3, p3]
    · rw [e4, p4, List.countP_cons]
      by_cases ho : t.owns_gil <;> (simp [ho]; try omega)
    · rw [e5, p5]

/-- The flush writes one GIL entry and resets the counters; it never
touches the trace log or the timestamp index. -/
theorem flush_data (st : WorkerState) :
    (flush st).data.traces = st.data.traces ∧
    (flush st).data.trace_ms = st.data.trace_ms ∧
    (flush st).data.stats.gil =
      st.data.stats.gil ++ [(st.current_gil : Rat) / (st.current : Rat)] ∧
    (flush st).current = 0 ∧ (flush st).current_gil = 0 :=
  ⟨rfl, rfl, rfl, rfl, rfl⟩

/-- One batch message appends its traces and one timestamp copy per
trace to the store. -/
theorem processBatch_data (st : WorkerState) (b : List StackTrace) (ts : Nat) :
    (processBatch st (b, ts)).data.traces = st.data.traces ++ b ∧
    (processBatch st (b, ts)).data.trace_ms =
      st.data.trace_ms ++ List.replicate b.length ts := by
  obtain ⟨e1, e2, _, _, _⟩ := foldl_processTrace_data ts b st
  unfold processBatch
  simp only []
  split_ifs with h
  · constructor
    · rw [(flush_data _).1]
      exact e1
    · rw [(flush_data _).2.1]
      exact e2
  · exact ⟨e1, e2⟩

/-- Shape of the store after any message sequence: the trace log is the
concatenation of the batches, and the timestamp index carries one entry
per trace. -/
theorem foldl_processBatch_shape (msgs : List (List StackTrace × Nat)) :
    ∀ st : WorkerState,
    (msgs.foldl processBatch st).data.traces =
      st.data.traces ++ (msgs.map Prod.fst).flatten ∧
    (msgs.foldl processBatch st).data.trace_ms.length =
      st.data.trace_ms.length + (msgs.map (fun m => m.1.length)).sum := by
  induction msgs with
  | nil => intro st; simp
  | cons m rest ih =>
    intro st
    obtain ⟨b, ts⟩ := m
    obtain ⟨p1, p2⟩ := processBatch_data st b ts
    obtain ⟨i1, i2⟩ := ih (processBatch st (b, ts))
    simp only [List.foldl_cons, List.map_cons, List.flatten_cons, List.sum_cons]
    constructor
    · rw [i1, p1, List.append_assoc]
    · rw [i2, p2, List.length_append, List.length_replicate]
      omega

/-- The timestamp index stays sorted as long as batch timestamps arrive
in non-decreasing order. -/
theorem foldl_processBatch_sorted (msgs : List (List StackTrace × Nat)) :
    ∀ st : WorkerState,
    st.data.trace_ms.Pairwise (· ≤ ·) →
    (∀ x ∈ st.data.trace_ms, ∀ m ∈ msgs, x ≤ m.2) →
    (msgs.map Prod.snd).Pairwise (· ≤ ·) →
    ((msgs.foldl processBatch st).data.trace_ms).Pairwise (· ≤ ·) := by
  induction msgs with
  | nil =>
    intro st h _ _
    exact h
  | cons m rest ih =>
    intro st hsort hbound hmsg
    obtain ⟨b, ts⟩ := m
    obtain ⟨_, p2⟩ := processBatch_data st b ts
    rw [List.map_cons, List.pairwise_cons] at hmsg
    apply ih
    · rw [p2, List.pairwise_append]
      refine ⟨hsort, (List.pairwise_replicate).mpr (Or.inr (le_refl ts)), ?_⟩
      intro x hx y hy
      rw [List.eq_of_mem_replicate hy]
      exact hbound x hx (b, ts) (by simp)
    · intro x hx m2 hm2
      rw [p2] at hx
      rcases List.mem_append.mp hx with hx | hx
      · exact hbound x hx m2 (by simp [hm2])
      · rw [List.eq_of_mem_replicate hx]
        exact hmsg.1 m2.2 (List.mem_map_of_mem Prod.snd hm2)
    · exact hmsg.2

/-- C6: for every submitted batch sequence the Store's trace and
timestamp sequences have equal length, the trace count is the sum of the
batch sizes, and the timestamp sequence is non-decreasing whenever the
batch timestamps arrive in non-decreasing order. -/
theorem C6_store_invariants (msgs : List (List StackTrace × Nat)) :
    (update_data msgs).data.traces.length = (update_data msgs).data.trace_ms.length ∧
    (update_data msgs).data.traces.length = (msgs.map (fun m => m.1.length)).sum ∧
    ((msgs.map Prod.snd).Pairwise (· ≤ ·) →
      ((update_data msgs).data.trace_ms).Pairwise (· ≤ ·)) := by
  obtain ⟨h1, h2⟩ := foldl_processBatch_shape msgs (initState "" "" 0)
  have htr : (update_data msgs).data.traces.length =
      (msgs.map (fun m => m.1.length)).sum := by
    unfold update_data
    rw [h1]
    simp [initState, List.length_flatten, Function.comp]
    rfl
  refine ⟨?_, htr, ?_⟩
  · rw [htr]
    unfold update_data
    rw [h2]
    simp [initState]
  · intro hmono
    unfold update_data
    apply foldl_processBatch_sorted msgs (initState "" "" 0)
    · simp [initState]
    · intro x hx
      simp [initState] at hx
    · exact hmono

/-- Witness for C6: two batches with timestamps 0 and 100 leave a sorted
timestamp index. -/
theorem C6_store_invariants_witness :
    ((update_data [([traceGil], 0), ([traceIdle], 100)]).data.trace_ms).Pairwise
      (· ≤ ·) :=
  (C6_store_invariants [([traceGil], 0), ([traceIdle], 100)]).2.2 (by decide)

/-- A flush writes a GIL entry inside [0, 1] whenever the GIL counter is
dominated by a positive batch counter. -/
theorem flush_gil_entries (x : WorkerState) (hcg : x.current_gil ≤ x.current)
    (hpos : 0 < x.current)
    (hgil : ∀ q ∈ x.data.stats.gil, 0 ≤ q ∧ q ≤ 1) :
    ∀ q ∈ (flush x).data.stats.gil, 0 ≤ q ∧ q ≤ 1 := by
  intro q hq
  have hflush : (flush x).data.stats.gil =
      x.data.stats.gil ++ [(x.current_gil : Rat) / (x.current : Rat)] := rfl
  rw [hflush, List.mem_append, List.mem_singleton] at hq
  rcases hq with hq | hq
  · exact hgil q hq
  · subst hq
    constructor
    · apply div_nonneg
      · exact Nat.cast_nonneg _
      · exact Nat.cast_nonneg _
    · rw [div_le_one (by exact_mod_cast hpos)]
      exact_mod_cast hcg

/-- With at most one GIL owner per batch, a batch message preserves the
counter domination and keeps every stored GIL entry inside [0, 1]. -/
theorem processBatch_gil (st : WorkerState) (b : List StackTrace) (ts : Nat)
    (hb : b.countP (fun t => t.owns_gil) ≤ 1)
    (hcg : st.current_gil ≤ st.current)
    (hgil : ∀ q ∈ st.data.stats.gil, 0 ≤ q ∧ q ≤ 1) :
    (processBatch st (b, ts)).current_gil ≤ (processBatch st (b, ts)).current ∧
    (∀ q ∈ (processBatch st (b, ts)).data.stats.gil, 0 ≤ q ∧ q ≤ 1) := by
  obtain ⟨_, _, e3, e4, e5⟩ := foldl_processTrace_data ts b st
  unfold processBatch
  simp only []
  split_ifs with h
  · constructor
    · rw [(flush_data _).2.2.2.1, (flush_data _).2.2.2.2]
    · apply flush_gil_entries
      · simp only [e3, e4]
        omega
      · simp only [e3]
        omega
      · simpa only [e5] using hgil
  · constructor
    · simp only [e3, e4]
      omega
    · simpa only [e5] using hgil

/-- The [0, 1] bound on the GIL series is an invariant of the worker
loop when every batch holds at most one GIL-owning trace. -/
theorem gil_bound_invariant (msgs : List (List StackTrace × Nat)) :
    ∀ st : WorkerState,
    (∀ m ∈ msgs, m.1.countP (fun t => t.owns_gil) ≤ 1) →
    st.current_gil ≤ st.current →
    (∀ q ∈ st.data.stats.gil, 0 ≤ q ∧ q ≤ 1) →
    (∀ q ∈ (msgs.foldl processBatch st).data.stats.gil, 0 ≤ q ∧ q ≤ 1) := by
  induction msgs with
  | nil =>
    intro st _ _ h
    exact h
  | cons m rest ih =>
    intro st hb hcg hgil
    obtain ⟨b, ts⟩ := m
    have hstep := processBatch_gil st b ts (hb (b, ts) (by simp)) hcg hgil
    exact ih (processBatch st (b, ts))
      (fun m2 hm2 => hb m2 (by simp [hm2])) hstep.1 hstep.2

/-- C5 (amended to batches with at most one GIL-owning trace each):
every entry of the global GIL series lies in [0, 1]. -/
theorem C5_gil_interval (msgs : List (List StackTrace × Nat))
    (hb : ∀ m ∈ msgs, m.1.countP (fun t => t.owns_gil) ≤ 1) :
    ∀ q ∈ (update_data msgs).data.stats.gil, 0 ≤ q ∧ q ≤ 1 := by
  apply gil_bound_invariant msgs (initState "" "" 0) hb (le_refl 0)
  intro q hq
  simp [initState] at hq

/-- Witness for C5: one batch with a single GIL-owning trace stores the
entry 1/1, which the theorem places in [0, 1]. -/
theorem C5_gil_interval_witness :
    0 ≤ ((1 : Nat) : Rat) / ((1 : Nat) : Rat) ∧
    ((1 : Nat) : Rat) / ((1 : Nat) : Rat) ≤ 1 :=
  C5_gil_interval [([traceGil], 0)] (by decide)
    (((1 : Nat) : Rat) / ((1 : Nat) : Rat))
    (by rw [show (update_data [([traceGil], 0)]).data.stats.gil =
          [((1 : Nat) : Rat) / ((1 : Nat) : Rat)] from rfl]
        exact List.mem_singleton.mpr rfl)

end WebViewer
